import Mathlib

/-!
Verification development for minio-statemap (src/main.rs).

The program reads MinIO JSON trace records, infers each operation's start
time from its end timestamp and duration, assigns integer state codes to
operation kinds in first-seen order, groups records per host, and emits a
statemap header followed by two state events per record (the operation's
state at its inferred start, then the synthetic "waiting" state at its
end), all expressed as nanosecond offsets from the minimum inferred start
time (the epoch).

The embedding below translates `print_states`, its `parse_data` fold,
its emission loop, and `main`'s call into pure Lean functions.  Rust `u64`
arithmetic is modelled as `Nat` with explicit reduction modulo `2 ^ 64`
(release-build wrapping semantics), `i64` multiplication as `Int` with
two's-complement wrapping, and every `panic!`/`expect`/`unwrap` as the
`Except.error` case of an `Except String` computation, which aborts the
remainder of the run exactly as a Rust panic does.  `chrono`
`DateTime<Utc>` values are modelled by the pair
(seconds since the Unix epoch : `Int`, subsecond nanoseconds : `Nat`);
chrono compares such values by the instant they denote, i.e.
lexicographically on that pair.  The `HashMap<String, Vec<TraceData>>`
accumulator is modelled as an insertion-ordered association list (the
claims proved below are invariant under the iteration order of the map),
and the `serde_json::Map` state registry as an association list with
no duplicate keys, whose unguarded `insert` replaces the value at an
existing key just as the Rust map's `insert` does.
-/

/-- Modulus of Rust `u64` arithmetic. -/
def U64SIZE : Nat := 18446744073709551616

/-- Rust release-mode `u64` addition: wraps modulo `2 ^ 64`. -/
def add64 (a b : Nat) : Nat := (a + b) % U64SIZE

/-- Rust release-mode `u64` subtraction: wraps modulo `2 ^ 64`. -/
def sub64 (a b : Nat) : Nat := (a + (U64SIZE - b % U64SIZE)) % U64SIZE

/-- Rust release-mode `i64` wrapping of an unbounded integer
(two's complement, into `[-2 ^ 63, 2 ^ 63)`). -/
def i64wrap (x : Int) : Int := (x + 9223372036854775808) % U64SIZE - 9223372036854775808

/-- Rust `i64 -> u64` `try_into`, as used at main.rs:121-123: fails exactly on
negative values; the surrounding `.expect` turns the failure into a panic. -/
def u64ofI64 (x : Int) : Except String Nat :=
  if x < 0 then .error "failed to make unix timestamp into ns timestamp" else .ok x.toNat

/-- The `callStats` block of a MinIO trace record (main.rs:35-42). -/
structure CallStats where
  rx : Nat
  tx : Nat
  duration : Nat
  timeToFirstByte : Nat
deriving Repr, DecidableEq

/-- One MinIO trace record (main.rs:21-33).  The `time` field of the Rust
struct (a `chrono::DateTime<Utc>`) is modelled by `timeSec` (the value of
`.timestamp()`) together with `timeSubsecNanos` (the value of
`.timestamp_subsec_nanos()`). -/
structure TraceData where
  host : String
  timeSec : Int
  timeSubsecNanos : Nat
  client : String
  api : String
  path : String
  query : String
  statusCode : Nat
  statusMsg : String
  callStats : CallStats
deriving Repr, DecidableEq

/-- Begin/end nanosecond timestamps as computed inside the `parse_data`
fold (main.rs:120-126): `end_ns = time.timestamp_subsec_nanos()`,
`unix_end_time = (time.timestamp() * 1_000_000_000).try_into().expect(..)`,
`end_time_ns = unix_end_time + end_ns`,
`begin_time_ns = end_time_ns - call_stats.duration` (unchecked `u64`
subtraction, hence wrapping in release builds). -/
def aggComputeTimes (td : TraceData) : Except String (Nat × Nat) :=
  let endNs : Nat := td.timeSubsecNanos
  match u64ofI64 (i64wrap (td.timeSec * 1000000000)) with
  | .error e => .error e
  | .ok unixEndTime =>
    let endTimeNs := add64 unixEndTime endNs
    let beginTimeNs := sub64 endTimeNs td.callStats.duration
    .ok (endTimeNs, beginTimeNs)

/-- Begin/end nanosecond timestamps as recomputed inside the emission loop
(main.rs:196-202), token for token the same computation as in the fold. -/
def emitComputeTimes (td : TraceData) : Except String (Nat × Nat) :=
  let endNs : Nat := td.timeSubsecNanos
  match u64ofI64 (i64wrap (td.timeSec * 1000000000)) with
  | .error e => .error e
  | .ok unixEndTime =>
    let endTimeNs := add64 unixEndTime endNs
    let beginTimeNs := sub64 endTimeNs td.callStats.duration
    .ok (endTimeNs, beginTimeNs)

/-- Specification-side end timestamp in nanoseconds: for a record with a
non-negative, non-overflowing timestamp this is the value the code
computes as `end_time_ns`. -/
def pureEndNs (td : TraceData) : Nat :=
  td.timeSec.toNat * 1000000000 + td.timeSubsecNanos

/-- Specification-side inferred start timestamp in nanoseconds
(`end_time_ns - duration`, exact for records whose duration does not
exceed their end timestamp). -/
def pureBeginNs (td : TraceData) : Nat :=
  pureEndNs td - td.callStats.duration

/-- The instant of a record's `time` field, as the pair chrono compares. -/
def tdTs (td : TraceData) : Int × Nat := (td.timeSec, td.timeSubsecNanos)

/-- Chronological strict order on `DateTime` instants: chrono compares two
`DateTime<Utc>` values by (seconds, subsecond nanoseconds),
lexicographically. -/
def tsLt (a b : Int × Nat) : Prop := a.1 < b.1 ∨ (a.1 = b.1 ∧ a.2 < b.2)

instance (a b : Int × Nat) : Decidable (tsLt a b) := by
  unfold tsLt; exact inferInstance

/-- Well-formedness of a trace record as the data model of the spec
assumes it: a timestamp in the representable (non-negative,
non-overflowing) range, subsecond nanoseconds below one second, and a
duration that does not exceed the end timestamp (so that the inferred
start does not underflow). -/
def TraceData.wf (td : TraceData) : Prop :=
  0 ≤ td.timeSec ∧
  td.timeSec * 1000000000 + (td.timeSubsecNanos : Int) < 9223372036854775808 ∧
  td.timeSubsecNanos < 1000000000 ∧
  td.callStats.duration ≤ pureEndNs td

instance (td : TraceData) : Decidable td.wf := by
  unfold TraceData.wf; exact inferInstance

/-- Accumulator of the `parse_data` fold together with the two variables it
captures from `print_states` (main.rs:92-95): the running minimum `start`,
the state registry `metamap` (kind name to assigned code) with its size
`num_states`, and the per-host grouping `acc`. -/
structure AggState where
  start : Option Nat
  metamap : List (String × Nat)
  numStates : Nat
  acc : List (String × List TraceData)
deriving Repr, DecidableEq

/-- The `acc.entry(host).or_insert_with(Vec::new).push(td)` pattern of
main.rs:138-142 on the association-list model of the `HashMap`: append to
the existing host's vector, or create a singleton entry for a new host. -/
def insertAppend (acc : List (String × List TraceData)) (h : String) (td : TraceData) :
    List (String × List TraceData) :=
  match acc with
  | [] => [(h, [td])]
  | (k, v) :: rest =>
    if k == h then (k, v ++ [td]) :: rest else (k, v) :: insertAppend rest h td

/-- One step of the `parse_data` closure (main.rs:116-144): panic on a
malformed record, compute the begin/end timestamps, update the running
minimum, register an unseen `api` kind with the next sequential code, and
append the record to its host's vector. -/
def parseStep (st : AggState) (x : Except String TraceData) : Except String AggState :=
  match x with
  | .error e => .error ("unexpected json format: " ++ e)
  | .ok td =>
    match aggComputeTimes td with
    | .error e => .error e
    | .ok (_endTimeNs, beginTimeNs) =>
      let start :=
        if st.start.isNone || beginTimeNs < st.start.getD 0 then some beginTimeNs
        else st.start
      let pair :=
        if st.metamap.any (fun p => p.1 == td.api) then (st.metamap, st.numStates)
        else (st.metamap ++ [(td.api, st.numStates)], st.numStates + 1)
      .ok { start := start, metamap := pair.1, numStates := pair.2,
            acc := insertAppend st.acc td.host td }

/-- The fold of `parse_data` over the deserialized record stream
(main.rs:155-157), with a panic aborting the rest of the run. -/
def aggregateFrom (st : AggState) : List (Except String TraceData) → Except String AggState
  | [] => .ok st
  | x :: rest =>
    match parseStep st x with
    | .error e => .error e
    | .ok st2 => aggregateFrom st2 rest

/-- The whole aggregation scan, started from the empty accumulator. -/
def aggregate (input : List (Except String TraceData)) : Except String AggState :=
  aggregateFrom { start := none, metamap := [], numStates := 0, acc := [] } input

/-- Lookup in the association-list model of the state registry; agrees
with `Map::get` because the registry never holds duplicate keys. -/
def lookupState : List (String × Nat) → String → Option Nat
  | [], _ => none
  | (k, v) :: rest, api => if k == api then some v else lookupState rest api

/-- The unguarded `metamap.insert` of main.rs:164-165: replace the value
at an existing key, otherwise append a new entry (the list position of a
key is irrelevant to lookups; only the mapping matters). -/
def insertReplace (m : List (String × Nat)) (k : String) (v : Nat) : List (String × Nat) :=
  if m.any (fun p => p.1 == k) then m.map (fun p => if p.1 == k then (k, v) else p)
  else m ++ [(k, v)]

/-- One emitted statemap record (the `State` struct, main.rs:57-62): the
offset is serialized as a decimal string. -/
structure StateEvent where
  time : String
  entity : String
  state : Nat
deriving Repr, DecidableEq

/-- The statemap header (main.rs:73-81); each registry entry is modelled by
its `value` field (the color metadata carries no claim-relevant content). -/
structure StateHeader where
  start : List Nat
  title : String
  host : String
  states : List (String × Nat)
deriving Repr, DecidableEq

/-- Everything `print_states` produces on success: the header line, the
emitted event lines in order, and the final `nerrors`/`nstates` counters. -/
structure Output where
  header : StateHeader
  events : List StateEvent
  nerrors : Nat
  nstates : Nat
deriving Repr, DecidableEq

/-- The inner per-record loop of the emitter (main.rs:192-255): recompute
begin/end, look the state code up in the header map (an `unwrap`),
increment `nerrors` when the previous record's `time` field is later than
the current record's, emit the operation state at the begin offset and the
waiting state at the end offset, and advance `prev_api`/`prev_ts`.
Arguments after the record list: previous api, previous timestamp, running
`nerrors`, running `nstates`. -/
def emitVec (startv : Nat) (states : List (String × Nat)) (waitingState : Nat)
    (host : String) :
    List TraceData → String → Int × Nat → Nat → Nat →
    Except String (Nat × Nat × List StateEvent)
  | [], _, _, nerrors, nstates => .ok (nerrors, nstates, [])
  | td :: rest, _prevApi, prevTs, nerrors, nstates =>
    match emitComputeTimes td with
    | .error e => .error e
    | .ok (endTimeNs, beginTimeNs) =>
      let offset := sub64 beginTimeNs startv
      match lookupState states td.api with
      | none => .error "called Option::unwrap() on a None value"
      | some statenum =>
        let nerrors2 := if tsLt (tdTs td) prevTs then nerrors + 1 else nerrors
        let smState : StateEvent :=
          { time := toString offset, entity := td.host, state := statenum }
        let offset2 := sub64 endTimeNs startv
        let waitState : StateEvent :=
          { time := toString offset2, entity := host, state := waitingState }
        match emitVec startv states waitingState host rest td.api (tdTs td)
            nerrors2 (nstates + 2) with
        | .error e => .error e
        | .ok (ne2, ns2, events) => .ok (ne2, ns2, smState :: waitState :: events)

/-- The outer per-host loop of the emitter (main.rs:185-256): for each
host, run the inner loop with `prev_api = ""` and `prev_ts` at the Unix
epoch, threading the global `nerrors`/`nstates` counters through. -/
def emitGroups (startv : Nat) (states : List (String × Nat)) (waitingState : Nat) :
    List (String × List TraceData) → Nat → Nat →
    Except String (Nat × Nat × List StateEvent)
  | [], nerrors, nstates => .ok (nerrors, nstates, [])
  | (host, statevec) :: rest, nerrors, nstates =>
    match emitVec startv states waitingState host statevec "" (0, 0) nerrors nstates with
    | .error e => .error e
    | .ok (ne1, ns1, evs) =>
      match emitGroups startv states waitingState rest ne1 ns1 with
      | .error e => .error e
      | .ok (ne2, ns2, evs2) => .ok (ne2, ns2, evs ++ evs2)

/-- The whole of `print_states` (main.rs:87-267) after the input file has
been deserialized into a stream of parse results: run the aggregation
fold, append the synthetic `waiting` state with code `num_states`, unwrap
the running minimum into the header's `[seconds, nanoseconds]` start pair
(a panic when the input held no record), then run the emission loops.
The host groups are iterated in insertion order; the `HashMap` iteration
order of the real program is arbitrary, and every property proved below
is invariant under it. -/
def printStates (input : List (Except String TraceData)) (title cluster : String) :
    Except String Output :=
  match aggregate input with
  | .error e => .error e
  | .ok st =>
    let waitingState := st.numStates
    let metamap := insertReplace st.metamap "waiting" waitingState
    match st.start with
    | none => .error "called Option::unwrap() on a None value"
    | some startv =>
      let header : StateHeader :=
        { start := [startv / 1000000000, startv % 1000000000],
          title := title, host := cluster, states := metamap }
      match emitGroups startv header.states waitingState st.acc 0 0 with
      | .error e => .error e
      | .ok (nerrors, nstates, events) =>
        .ok { header := header, events := events, nerrors := nerrors, nstates := nstates }

/-- The call `main` makes after option parsing (main.rs:308-314):
`print_states(&ifile, &cluster, &title)` — the `-c` (cluster-name)
argument is passed in `print_states`' second parameter position (its
`title` parameter) and the `-t` (title) argument in the third (its
`cluster` parameter). -/
def runMain (input : List (Except String TraceData)) (cluster title : String) :
    Except String Output :=
  printStates input cluster title

/-- Running minimum of the inferred start times, seeded with an optional
already-seen minimum; mirrors the `start` update of main.rs:128-130. -/
def runMin : Option Nat → List TraceData → Option Nat
  | s, [] => s
  | none, td :: rest => runMin (some (pureBeginNs td)) rest
  | some m, td :: rest =>
    runMin (some (if pureBeginNs td < m then pureBeginNs td else m)) rest

/-- Specification-side epoch of a trace: the minimum inferred start time. -/
def epochOf (input : List TraceData) : Nat := (runMin none input).getD 0

/-- Distinct elements of a list in first-seen order, given a set of
already-seen elements. -/
def firstSeenFrom (seen : List String) : List String → List String
  | [] => []
  | k :: ks =>
    if k ∈ seen then firstSeenFrom seen ks else k :: firstSeenFrom (seen ++ [k]) ks

/-- Distinct elements of a list in first-seen order. -/
def firstSeen (ks : List String) : List String := firstSeenFrom [] ks

/-- Pair each element of a list with consecutive codes starting at `n`. -/
def enumFrom (n : Nat) : List String → List (String × Nat)
  | [] => []
  | k :: ks => (k, n) :: enumFrom (n + 1) ks

/-- Specification-side per-host grouping: the fold of `insertAppend`. -/
def groupFold (acc : List (String × List TraceData)) :
    List TraceData → List (String × List TraceData)
  | [] => acc
  | td :: rest => groupFold (insertAppend acc td.host td) rest

/-- Per-host grouping of a record list, in host insertion order. -/
def groupByHost (l : List TraceData) : List (String × List TraceData) :=
  groupFold [] l

/-- Number of `nerrors` increments the emission loop performs on one
host's vector, seeded with a previous timestamp: one per record whose
`time` field is strictly earlier than the previous record's. -/
def countViol (prevTs : Int × Nat) : List TraceData → Nat
  | [] => 0
  | td :: rest =>
    (if tsLt (tdTs td) prevTs then 1 else 0) + countViol (tdTs td) rest

/-- Number of adjacent pairs, in arrival order, whose second record's
completion timestamp strictly predates the first record's. -/
def adjViol : List TraceData → Nat
  | [] => 0
  | [_] => 0
  | a :: b :: rest => (if tsLt (tdTs b) (tdTs a) then 1 else 0) + adjViol (b :: rest)

/-- Total `countViol` over all host groups, seeded at the Unix epoch. -/
def sumViol : List (String × List TraceData) → Nat
  | [] => 0
  | g :: rest => countViol (0, 0) g.2 + sumViol rest

/-- Total adjacent-pair violation count over all host groups. -/
def sumAdjViol : List (String × List TraceData) → Nat
  | [] => 0
  | g :: rest => adjViol g.2 + sumAdjViol rest

/-- A record sequence is non-overlapping when, for every adjacent pair in
arrival order, the first operation ends no later than the second starts. -/
def nonOverlapping : List TraceData → Prop
  | [] => True
  | [_] => True
  | a :: b :: rest => pureEndNs a ≤ pureBeginNs b ∧ nonOverlapping (b :: rest)

/-- Total number of records across all host groups. -/
def totalLen : List (String × List TraceData) → Nat
  | [] => 0
  | g :: rest => g.2.length + totalLen rest

/-- The two events the emitter produces for one record: the operation's
state code at the begin offset, then the waiting code at the end offset,
offsets serialized as decimal strings. -/
def eventPair (startv : Nat) (states : List (String × Nat)) (waitingState : Nat)
    (host : String) (td : TraceData) : List StateEvent :=
  [{ time := toString (pureBeginNs td - startv), entity := td.host,
     state := (lookupState states td.api).getD 0 },
   { time := toString (pureEndNs td - startv), entity := host, state := waitingState }]

/-- Events emitted for one host's vector, in order. -/
def eventsOfVec (startv : Nat) (states : List (String × Nat)) (waitingState : Nat)
    (host : String) : List TraceData → List StateEvent
  | [] => []
  | td :: rest =>
    eventPair startv states waitingState host td ++
      eventsOfVec startv states waitingState host rest

/-- Events emitted for a list of host groups, in order. -/
def eventsOfGroups (startv : Nat) (states : List (String × Nat)) (waitingState : Nat) :
    List (String × List TraceData) → List StateEvent
  | [] => []
  | (host, vec) :: rest =>
    eventsOfVec startv states waitingState host vec ++
      eventsOfGroups startv states waitingState rest

/-- The api kinds of a trace, in arrival order. -/
def apisOf (input : List TraceData) : List String :=
  input.map (fun td => td.api)

/-- The header's state registry for a given trace: real kinds coded in
first-seen order from 0, then the `waiting` entry inserted with code equal
to the number of distinct real kinds (replacing an existing `waiting` key,
as the Rust map insert does). -/
def hdrStatesOf (input : List TraceData) : List (String × Nat) :=
  insertReplace (enumFrom 0 (firstSeen (apisOf input))) "waiting"
    (firstSeen (apisOf input)).length

/-- The full event stream `print_states` emits for a well-formed trace. -/
def eventsSpec (input : List TraceData) : List StateEvent :=
  eventsOfGroups (epochOf input) (hdrStatesOf input)
    (firstSeen (apisOf input)).length (groupByHost input)

/-- The epoch encoded in a header's `[seconds, nanoseconds]` start pair. -/
def headerEpoch (h : StateHeader) : Nat :=
  h.start.getD 0 0 * 1000000000 + h.start.getD 1 0

/-- Truth of the success case of a run. -/
def isOkB : Except String Output → Bool
  | .ok _ => true
  | .error _ => false

/-- The fatal-error message of a run, when it failed. -/
def errorOf : Except String Output → Option String
  | .ok _ => none
  | .error e => some e

/-- The final violation counter of a successful run. -/
def nerrorsOf : Except String Output → Option Nat
  | .ok o => some o.nerrors
  | .error _ => none

/-- The header state registry of a successful run. -/
def statesOf : Except String Output → Option (List (String × Nat))
  | .ok o => some o.header.states
  | .error _ => none

/-- The emitted events of a successful run. -/
def eventsOf : Except String Output → Option (List StateEvent)
  | .ok o => some o.events
  | .error _ => none

/-- The header's (title, host) fields of a successful run. -/
def titleHostOf : Except String Output → Option (String × String)
  | .ok o => some (o.header.title, o.header.host)
  | .error _ => none

/-- The computed (end, begin) nanosecond pair, when no panic occurred. -/
def timesOf : Except String (Nat × Nat) → Option (Nat × Nat)
  | .ok p => some p
  | .error _ => none

/-- Example record A of the spec's test scenario: kind `Put` on host `h1`,
ending at 1 000 000 000 ns with duration 300 000 000 ns (start
700 000 000 ns). -/
def exA : TraceData :=
  { host := "h1", timeSec := 1, timeSubsecNanos := 0, client := "",
    api := "Put", path := "/b/o", query := "", statusCode := 200, statusMsg := "OK",
    callStats := { rx := 0, tx := 0, duration := 300000000, timeToFirstByte := 0 } }

/-- Example record B of the spec's test scenario: kind `Get` on host `h1`,
ending at 1 500 000 000 ns with duration 100 000 000 ns (start
1 400 000 000 ns). -/
def exB : TraceData :=
  { host := "h1", timeSec := 1, timeSubsecNanos := 500000000, client := "",
    api := "Get", path := "/b/o", query := "", statusCode := 200, statusMsg := "OK",
    callStats := { rx := 0, tx := 0, duration := 100000000, timeToFirstByte := 0 } }

/-- The spec's two-record example trace. -/
def exInput : List TraceData := [exA, exB]

/-- The aggregation state produced by scanning `exInput`. -/
def exAgg : AggState :=
  { start := some 700000000, metamap := [("Put", 0), ("Get", 1)], numStates := 2,
    acc := [("h1", [exA, exB])] }

/-- A record that overlaps `exA` by start/end comparison but not by the
code's end/end comparison: it ends at 2 000 000 000 ns with duration
1 500 000 000 ns, so it starts at 500 000 000 ns, before `exA`'s end
(1 000 000 000 ns), while ending after it. -/
def cB : TraceData :=
  { host := "h1", timeSec := 2, timeSubsecNanos := 0, client := "",
    api := "Get", path := "/b/o", query := "", statusCode := 200, statusMsg := "OK",
    callStats := { rx := 0, tx := 0, duration := 1500000000, timeToFirstByte := 0 } }

/-- A record whose operation kind is the literal string `waiting`. -/
def recW : TraceData :=
  { host := "h1", timeSec := 1, timeSubsecNanos := 0, client := "",
    api := "waiting", path := "/b/o", query := "", statusCode := 200, statusMsg := "OK",
    callStats := { rx := 0, tx := 0, duration := 0, timeToFirstByte := 0 } }

/-- A record whose duration (2 000 000 000 ns) exceeds its end timestamp
(1 000 000 000 ns), so the inferred start would be negative. -/
def badRec : TraceData :=
  { host := "h1", timeSec := 1, timeSubsecNanos := 0, client := "",
    api := "Put", path := "/b/o", query := "", statusCode := 200, statusMsg := "OK",
    callStats := { rx := 0, tx := 0, duration := 2000000000, timeToFirstByte := 0 } }

example : timesOf (aggComputeTimes exA) = some (1000000000, 700000000) := by decide

example : nerrorsOf (printStates [.ok exA, .ok exB] "t" "c") = some 0 := by decide

example : eventsOf (printStates [.ok exA, .ok exB] "t" "c") =
    some [{ time := "0", entity := "h1", state := 0 },
          { time := "300000000", entity := "h1", state := 2 },
          { time := "700000000", entity := "h1", state := 1 },
          { time := "800000000", entity := "h1", state := 2 }] := by decide

/-! Shared lemmas. -/

theorem computeTimes_eq (td : TraceData) : aggComputeTimes td = emitComputeTimes td := rfl

theorem sub64_eq_sub (a b : Nat) (hb : b ≤ a) (ha : a < U64SIZE) : sub64 a b = a - b := by
  unfold sub64 U64SIZE at *
  omega

theorem wf_end_lt (td : TraceData) (h : td.wf) : pureEndNs td < U64SIZE := by
  obtain ⟨h0, h1, h2, h3⟩ := h
  unfold pureEndNs U64SIZE at *
  omega

theorem computeTimes_emit (td : TraceData) (h : td.wf) :
    emitComputeTimes td = .ok (pureEndNs td, pureBeginNs td) := by
  obtain ⟨h0, h1, h2, h3⟩ := h
  unfold pureBeginNs at *
  unfold pureEndNs at *
  unfold emitComputeTimes
  have hw : i64wrap (td.timeSec * 1000000000) = td.timeSec * 1000000000 := by
    unfold i64wrap U64SIZE
    omega
  rw [hw]
  unfold u64ofI64
  rw [if_neg (by omega)]
  simp only [Except.ok.injEq, Prod.mk.injEq]
  unfold add64 sub64 U64SIZE
  constructor
  · omega
  · omega

theorem computeTimes_agg (td : TraceData) (h : td.wf) :
    aggComputeTimes td = .ok (pureEndNs td, pureBeginNs td) := by
  rw [computeTimes_eq]
  exact computeTimes_emit td h

theorem anyKey_iff (m : List (String × Nat)) (k : String) :
    (m.any (fun p => p.1 == k)) = true ↔ k ∈ m.map Prod.fst := by
  induction m with
  | nil => simp
  | cons p rest ih =>
    simp only [List.any_cons, List.map_cons, List.mem_cons, Bool.or_eq_true, beq_iff_eq, ih]
    constructor
    · rintro (h | h)
      · exact Or.inl h.symm
      · exact Or.inr h
    · rintro (h | h)
      · exact Or.inl h.symm
      · exact Or.inr h

theorem parseStep_ok (st : AggState) (td : TraceData) (h : td.wf) :
    parseStep st (.ok td) = .ok
      { start :=
          if st.start.isNone || pureBeginNs td < st.start.getD 0 then some (pureBeginNs td)
          else st.start,
        metamap :=
          if st.metamap.any (fun p => p.1 == td.api) then st.metamap
          else st.metamap ++ [(td.api, st.numStates)],
        numStates :=
          if st.metamap.any (fun p => p.1 == td.api) then st.numStates
          else st.numStates + 1,
        acc := insertAppend st.acc td.host td } := by
  have hct := computeTimes_agg td h
  simp only [parseStep, hct]
  by_cases hseen : (st.metamap.any (fun p => p.1 == td.api)) = true
  · simp [hseen]
  · simp [hseen]

theorem runMin_step (s : Option Nat) (td : TraceData) (rest : List TraceData) :
    runMin s (td :: rest) =
      runMin (if s.isNone || pureBeginNs td < s.getD 0 then some (pureBeginNs td) else s)
        rest := by
  cases s with
  | none => simp [runMin]
  | some m =>
    by_cases hc : pureBeginNs td < m
    · simp [runMin, hc]
    · simp [runMin, hc]

theorem agg_spec : ∀ (l : List TraceData) (st : AggState), (∀ td ∈ l, td.wf) →
    aggregateFrom st (l.map Except.ok) =
      .ok { start := runMin st.start l,
            metamap := st.metamap ++
              enumFrom st.numStates (firstSeenFrom (st.metamap.map Prod.fst) (apisOf l)),
            numStates := st.numStates +
              (firstSeenFrom (st.metamap.map Prod.fst) (apisOf l)).length,
            acc := groupFold st.acc l } := by
  intro l
  induction l with
  | nil =>
    intro st h
    simp [aggregateFrom, runMin, firstSeenFrom, enumFrom, groupFold, apisOf]
  | cons td rest ih =>
    intro st h
    have hw : td.wf := h td (by simp)
    have hrest : ∀ x ∈ rest, x.wf := fun x hx => h x (by simp [hx])
    simp only [List.map_cons, aggregateFrom, parseStep_ok st td hw]
    rw [ih _ hrest]
    rw [runMin_step]
    have hkey := anyKey_iff st.metamap td.api
    cases hseen : st.metamap.any (fun p => p.1 == td.api) with
    | true =>
      have hmem : td.api ∈ st.metamap.map Prod.fst := hkey.mp hseen
      simp [hseen, apisOf, firstSeenFrom, hmem, groupFold]
    | false =>
      have hmem : td.api ∉ st.metamap.map Prod.fst := by
        intro hc
        rw [hkey.mpr hc] at hseen
        exact absurd hseen (by simp)
      simp [hseen, apisOf, firstSeenFrom, hmem, groupFold, enumFrom,
        List.append_assoc]
      omega

theorem aggregate_spec (l : List TraceData) (h : ∀ td ∈ l, td.wf) :
    aggregate (l.map Except.ok) =
      .ok { start := runMin none l,
            metamap := enumFrom 0 (firstSeen (apisOf l)),
            numStates := (firstSeen (apisOf l)).length,
            acc := groupFold [] l } := by
  unfold aggregate
  rw [agg_spec l _ h]
  simp [firstSeen]

theorem runMin_some : ∀ (l : List TraceData) (x : Nat),
    ∃ y, runMin (some x) l = some y ∧ y ≤ x ∧ (∀ td ∈ l, y ≤ pureBeginNs td) ∧
      (y = x ∨ y ∈ l.map pureBeginNs) := by
  intro l
  induction l with
  | nil =>
    intro x
    exact ⟨x, rfl, le_refl x, by simp, Or.inl rfl⟩
  | cons td rest ih =>
    intro x
    by_cases hc : pureBeginNs td < x
    · obtain ⟨y, hy, hyx, hylb, hymem⟩ := ih (pureBeginNs td)
      refine ⟨y, ?_, by omega, ?_, ?_⟩
      · simp [runMin, hc]; exact hy
      · intro z hz
        rcases List.mem_cons.mp hz with h1 | h1
        · rw [h1]; omega
        · exact hylb z h1
      · rcases hymem with h1 | h1
        · exact Or.inr (by simp [h1])
        · exact Or.inr (by simp [h1])
    · obtain ⟨y, hy, hyx, hylb, hymem⟩ := ih x
      refine ⟨y, ?_, hyx, ?_, ?_⟩
      · simp [runMin, hc]; exact hy
      · intro z hz
        rcases List.mem_cons.mp hz with h1 | h1
        · rw [h1]; omega
        · exact hylb z h1
      · rcases hymem with h1 | h1
        · exact Or.inl h1
        · exact Or.inr (by simp [h1])

theorem runMin_cons (td : TraceData) (rest : List TraceData) :
    ∃ m, runMin none (td :: rest) = some m ∧
      (∀ x ∈ td :: rest, m ≤ pureBeginNs x) ∧ m ∈ (td :: rest).map pureBeginNs := by
  obtain ⟨y, hy, hyx, hylb, hymem⟩ := runMin_some rest (pureBeginNs td)
  refine ⟨y, ?_, ?_, ?_⟩
  · simp [runMin]; exact hy
  · intro z hz
    rcases List.mem_cons.mp hz with h1 | h1
    · rw [h1]; omega
    · exact hylb z h1
  · rcases hymem with h1 | h1
    · exact (by simp [h1])
    · exact (by simp [h1])

theorem insertAppend_total (acc : List (String × List TraceData)) (h : String)
    (td : TraceData) : totalLen (insertAppend acc h td) = totalLen acc + 1 := by
  induction acc with
  | nil => simp [insertAppend, totalLen]
  | cons g rest ih =>
    obtain ⟨k, v⟩ := g
    by_cases hk : (k == h) = true
    · simp [insertAppend, hk, totalLen]
      omega
    · simp only [insertAppend, Bool.not_eq_true] at *
      simp [hk, totalLen, ih]
      omega

theorem groupFold_total : ∀ (l : List TraceData) (acc : List (String × List TraceData)),
    totalLen (groupFold acc l) = totalLen acc + l.length := by
  intro l
  induction l with
  | nil => intro acc; simp [groupFold]
  | cons td rest ih =>
    intro acc
    simp [groupFold, ih, insertAppend_total]
    omega

theorem insertAppend_mem : ∀ (acc : List (String × List TraceData)) (h : String)
    (td0 : TraceData) (g : String × List TraceData) (x : TraceData),
    g ∈ insertAppend acc h td0 → x ∈ g.2 → (∃ g0 ∈ acc, x ∈ g0.2) ∨ x = td0 := by
  intro acc
  induction acc with
  | nil =>
    intro h td0 g x hg hx
    simp [insertAppend] at hg
    rw [hg] at hx
    simp at hx
    exact Or.inr hx
  | cons p rest ih =>
    intro h td0 g x hg hx
    obtain ⟨k, v⟩ := p
    by_cases hk : (k == h) = true
    · simp only [insertAppend, hk, if_true, List.mem_cons] at hg
      rcases hg with h1 | h1
      · rw [h1] at hx
        simp at hx
        rcases hx with h2 | h2
        · exact Or.inl ⟨(k, v), by simp, h2⟩
        · exact Or.inr h2
      · exact Or.inl ⟨g, List.mem_cons.mpr (Or.inr h1), hx⟩
    · simp only [insertAppend, hk] at hg
      rw [if_neg (by simp)] at hg
      rcases List.mem_cons.mp hg with h1 | h1
      · exact Or.inl ⟨g, List.mem_cons.mpr (Or.inl h1), hx⟩
      · rcases ih h td0 g x h1 hx with h2 | h2
        · obtain ⟨g0, hg0, hxg0⟩ := h2
          exact Or.inl ⟨g0, List.mem_cons.mpr (Or.inr hg0), hxg0⟩
        · exact Or.inr h2

theorem groupFold_mem : ∀ (l : List TraceData) (acc : List (String × List TraceData))
    (g : String × List TraceData) (x : TraceData),
    g ∈ groupFold acc l → x ∈ g.2 → (∃ g0 ∈ acc, x ∈ g0.2) ∨ x ∈ l := by
  intro l
  induction l with
  | nil =>
    intro acc g x hg hx
    exact Or.inl ⟨g, hg, hx⟩
  | cons td rest ih =>
    intro acc g x hg hx
    rcases ih (insertAppend acc td.host td) g x hg hx with h1 | h1
    · obtain ⟨g0, hg0, hxg0⟩ := h1
      rcases insertAppend_mem acc td.host td g0 x hg0 hxg0 with h2 | h2
      · exact Or.inl h2
      · exact Or.inr (by simp [h2])
    · exact Or.inr (by simp [h1])

theorem groupByHost_mem (l : List TraceData) (g : String × List TraceData)
    (x : TraceData) (hg : g ∈ groupByHost l) (hx : x ∈ g.2) : x ∈ l := by
  rcases groupFold_mem l [] g x hg hx with h1 | h1
  · obtain ⟨g0, hg0, _⟩ := h1
    simp at hg0
  · exact h1

theorem lookupState_isSome_of_mem (m : List (String × Nat)) (k : String)
    (h : k ∈ m.map Prod.fst) : (lookupState m k).isSome = true := by
  induction m with
  | nil => simp at h
  | cons p rest ih =>
    simp only [List.map_cons, List.mem_cons] at h
    by_cases hk : (p.1 == k) = true
    · simp [lookupState, hk]
    · rcases h with h1 | h1
      · exact absurd (beq_iff_eq.mpr h1.symm) hk
      · simp only [lookupState]
        rw [if_neg (by simp_all)]
        exact ih h1

theorem enumFrom_keys : ∀ (l : List String) (n : Nat),
    (enumFrom n l).map Prod.fst = l := by
  intro l
  induction l with
  | nil => intro n; simp [enumFrom]
  | cons k ks ih => intro n; simp [enumFrom, ih]

theorem enumFrom_mem : ∀ (l : List String) (n : Nat) (p : String × Nat),
    p ∈ enumFrom n l → p.1 ∈ l ∧ n ≤ p.2 ∧ p.2 < n + l.length := by
  intro l
  induction l with
  | nil => intro n p hp; simp [enumFrom] at hp
  | cons k ks ih =>
    intro n p hp
    simp only [enumFrom, List.mem_cons] at hp
    rcases hp with h1 | h1
    · rw [h1]
      simp
    · obtain ⟨hm, hlo, hhi⟩ := ih (n + 1) p h1
      refine ⟨by simp [hm], by omega, by simp; omega⟩

theorem firstSeenFrom_mem : ∀ (ks seen : List String) (k : String),
    k ∈ ks → k ∈ seen ∨ k ∈ firstSeenFrom seen ks := by
  intro ks
  induction ks with
  | nil => intro seen k h; simp at h
  | cons a ks ih =>
    intro seen k h
    by_cases ha : a ∈ seen
    · simp only [firstSeenFrom, if_pos ha]
      rcases List.mem_cons.mp h with h1 | h1
      · exact Or.inl (h1 ▸ ha)
      · exact ih seen k h1
    · simp only [firstSeenFrom, if_neg ha]
      rcases List.mem_cons.mp h with h1 | h1
      · exact Or.inr (by simp [h1])
      · rcases ih (seen ++ [a]) k h1 with h2 | h2
        · rcases List.mem_append.mp h2 with h3 | h3
          · exact Or.inl h3
          · simp at h3
            exact Or.inr (by simp [h3])
        · exact Or.inr (by simp [h2])

theorem firstSeenFrom_subset : ∀ (ks seen : List String) (x : String),
    x ∈ firstSeenFrom seen ks → x ∈ ks := by
  intro ks
  induction ks with
  | nil => intro seen x h; simp [firstSeenFrom] at h
  | cons a ks ih =>
    intro seen x h
    by_cases ha : a ∈ seen
    · simp only [firstSeenFrom, if_pos ha] at h
      exact List.mem_cons.mpr (Or.inr (ih seen x h))
    · simp only [firstSeenFrom, if_neg ha, List.mem_cons] at h
      rcases h with h1 | h1
      · exact List.mem_cons.mpr (Or.inl h1)
      · exact List.mem_cons.mpr (Or.inr (ih (seen ++ [a]) x h1))

theorem lookupState_append (m m2 : List (String × Nat)) (k : String) :
    lookupState (m ++ m2) k =
      match lookupState m k with
      | some v => some v
      | none => lookupState m2 k := by
  induction m with
  | nil => simp [lookupState]
  | cons p rest ih =>
    by_cases hk : (p.1 == k) = true
    · simp [lookupState, hk]
    · simp only [List.cons_append, lookupState, hk, if_false]
      rw [if_neg (by simp_all), if_neg (by simp_all)]
      exact ih

theorem lookup_mapReplace (k : String) (v : Nat) (api : String) :
    ∀ (m : List (String × Nat)),
    (lookupState (m.map (fun p => if p.1 == k then (k, v) else p)) api).isSome =
      (lookupState m api).isSome := by
  intro m
  induction m with
  | nil => simp [lookupState]
  | cons p rest ih =>
    obtain ⟨k1, v1⟩ := p
    simp only [List.map_cons]
    by_cases hk : (k1 == k) = true
    · have hk1 : k1 = k := beq_iff_eq.mp hk
      subst hk1
      rw [if_pos hk]
      by_cases hapi : (k1 == api) = true
      · simp [lookupState, hapi]
      · simp only [lookupState]
        rw [if_neg hapi, if_neg hapi]
        exact ih
    · rw [if_neg hk]
      by_cases hapi : (k1 == api) = true
      · simp [lookupState, hapi]
      · simp only [lookupState]
        rw [if_neg hapi, if_neg hapi]
        exact ih

theorem insertReplace_isSome (m : List (String × Nat)) (k : String) (v : Nat)
    (api : String) (h : (lookupState m api).isSome = true) :
    (lookupState (insertReplace m k v) api).isSome = true := by
  unfold insertReplace
  by_cases hany : (m.any fun p => p.1 == k) = true
  · rw [if_pos hany, lookup_mapReplace]
    exact h
  · rw [if_neg hany, lookupState_append]
    cases hl : lookupState m api with
    | none => rw [hl] at h; simp at h
    | some w => simp

theorem insertReplace_not_mem (m : List (String × Nat)) (k : String) (v : Nat)
    (h : k ∉ m.map Prod.fst) : insertReplace m k v = m ++ [(k, v)] := by
  unfold insertReplace
  rw [if_neg]
  intro hc
  exact h ((anyKey_iff m k).mp hc)

theorem tsLt_iff (a b : TraceData) (ha : a.wf) (hb : b.wf) :
    tsLt (tdTs a) (tdTs b) ↔ pureEndNs a < pureEndNs b := by
  obtain ⟨ha0, ha1, ha2, _⟩ := ha
  obtain ⟨hb0, hb1, hb2, _⟩ := hb
  unfold tsLt tdTs pureEndNs
  simp only []
  omega

theorem tsLt_zero (td : TraceData) (h : 0 ≤ td.timeSec) :
    ¬ tsLt (tdTs td) (0, 0) := by
  unfold tsLt tdTs
  simp only []
  omega

theorem countViol_shift : ∀ (rest : List TraceData) (a : TraceData),
    countViol (tdTs a) rest = adjViol (a :: rest) := by
  intro rest
  induction rest with
  | nil => intro a; simp [countViol, adjViol]
  | cons b rest ih =>
    intro a
    simp only [countViol, adjViol, ih b]

theorem countViol_eq_adj (vec : List TraceData) (h : ∀ td ∈ vec, 0 ≤ td.timeSec) :
    countViol (0, 0) vec = adjViol vec := by
  cases vec with
  | nil => simp [countViol, adjViol]
  | cons a rest =>
    simp only [countViol, countViol_shift]
    rw [if_neg (tsLt_zero a (h a (by simp)))]
    omega

theorem adjViol_eq_zero : ∀ (vec : List TraceData), (∀ td ∈ vec, td.wf) →
    nonOverlapping vec → adjViol vec = 0 := by
  intro vec
  induction vec with
  | nil => intro _ _; rfl
  | cons a rest ih =>
    intro hwf hno
    cases rest with
    | nil => rfl
    | cons b rest2 =>
      obtain ⟨hab, hno2⟩ := hno
      have hwa : a.wf := hwf a (by simp)
      have hwb : b.wf := hwf b (by simp)
      have hnlt : ¬ tsLt (tdTs b) (tdTs a) := by
        rw [tsLt_iff b a hwb hwa]
        have hble : pureBeginNs b ≤ pureEndNs b := Nat.sub_le _ _
        omega
      have hr := ih (fun td htd => hwf td (List.mem_cons.mpr (Or.inr htd))) hno2
      simp only [adjViol, if_neg hnlt]
      omega

theorem emitVec_ok (startv : Nat) (states : List (String × Nat)) (waitingState : Nat)
    (host : String) :
    ∀ (vec : List TraceData) (prevApi : String) (prevTs : Int × Nat) (nerr nst : Nat),
    (∀ td ∈ vec, td.wf) →
    (∀ td ∈ vec, startv ≤ pureBeginNs td) →
    (∀ td ∈ vec, (lookupState states td.api).isSome = true) →
    emitVec startv states waitingState host vec prevApi prevTs nerr nst =
      .ok (nerr + countViol prevTs vec, nst + 2 * vec.length,
           eventsOfVec startv states waitingState host vec) := by
  intro vec
  induction vec with
  | nil =>
    intro prevApi prevTs nerr nst _ _ _
    simp [emitVec, countViol, eventsOfVec]
  | cons td rest ih =>
    intro prevApi prevTs nerr nst hwf hlb hlk
    have hw : td.wf := hwf td (by simp)
    have hct := computeTimes_emit td hw
    have hlks := hlk td (by simp)
    obtain ⟨code, hcode⟩ := Option.isSome_iff_exists.mp hlks
    have hbeginlt : pureBeginNs td < U64SIZE :=
      Nat.lt_of_le_of_lt (Nat.sub_le _ _) (wf_end_lt td hw)
    have hlbtd : startv ≤ pureBeginNs td := hlb td (by simp)
    have hsub1 : sub64 (pureBeginNs td) startv = pureBeginNs td - startv :=
      sub64_eq_sub _ _ hlbtd hbeginlt
    have hsub2 : sub64 (pureEndNs td) startv = pureEndNs td - startv :=
      sub64_eq_sub _ _ (le_trans hlbtd (Nat.sub_le _ _)) (wf_end_lt td hw)
    have hrest := ih td.api (tdTs td)
      (if tsLt (tdTs td) prevTs then nerr + 1 else nerr) (nst + 2)
      (fun x hx => hwf x (List.mem_cons.mpr (Or.inr hx)))
      (fun x hx => hlb x (List.mem_cons.mpr (Or.inr hx)))
      (fun x hx => hlk x (List.mem_cons.mpr (Or.inr hx)))
    simp only [emitVec, hct, hcode, hrest]
    simp only [eventsOfVec, eventPair, countViol, hsub1, hsub2, hcode,
      Option.getD_some, List.length_cons, Except.ok.injEq, Prod.mk.injEq]
    refine ⟨?_, ?_, ?_⟩
    · by_cases hv : tsLt (tdTs td) prevTs
      · simp [hv]; omega
      · simp [hv]
    · omega
    · simp

theorem emitGroups_ok (startv : Nat) (states : List (String × Nat))
    (waitingState : Nat) :
    ∀ (groups : List (String × List TraceData)) (nerr nst : Nat),
    (∀ g ∈ groups, ∀ td ∈ g.2,
      td.wf ∧ startv ≤ pureBeginNs td ∧ (lookupState states td.api).isSome = true) →
    emitGroups startv states waitingState groups nerr nst =
      .ok (nerr + sumViol groups, nst + 2 * totalLen groups,
           eventsOfGroups startv states waitingState groups) := by
  intro groups
  induction groups with
  | nil =>
    intro nerr nst _
    simp [emitGroups, sumViol, totalLen, eventsOfGroups]
  | cons g rest ih =>
    intro nerr nst h
    obtain ⟨host, vec⟩ := g
    have hvec := h (host, vec) (by simp)
    have hv1 : ∀ td ∈ vec, td.wf := fun td htd => (hvec td htd).1
    have hv2 : ∀ td ∈ vec, startv ≤ pureBeginNs td := fun td htd => (hvec td htd).2.1
    have hv3 : ∀ td ∈ vec, (lookupState states td.api).isSome = true :=
      fun td htd => (hvec td htd).2.2
    have hrest := ih (nerr + countViol (0, 0) vec) (nst + 2 * vec.length)
      (fun g2 hg2 => h g2 (List.mem_cons.mpr (Or.inr hg2)))
    simp only [emitGroups, emitVec_ok startv states waitingState host vec "" (0, 0)
      nerr nst hv1 hv2 hv3, hrest]
    simp only [sumViol, totalLen, eventsOfGroups, Except.ok.injEq, Prod.mk.injEq]
    refine ⟨by omega, by omega, trivial⟩

theorem totalLen_groupByHost (l : List TraceData) : totalLen (groupByHost l) = l.length := by
  unfold groupByHost
  rw [groupFold_total]
  simp [totalLen]

theorem printStates_spec (input : List TraceData) (t c : String)
    (hwf : ∀ td ∈ input, td.wf) (hne : input ≠ []) :
    printStates (input.map Except.ok) t c =
      .ok { header := { start := [epochOf input / 1000000000, epochOf input % 1000000000],
                        title := t, host := c, states := hdrStatesOf input },
            events := eventsSpec input,
            nerrors := sumViol (groupByHost input),
            nstates := 2 * input.length } := by
  cases input with
  | nil => exact absurd rfl hne
  | cons td0 rest0 =>
    obtain ⟨m, hm, hlb, hmem⟩ := runMin_cons td0 rest0
    have hep : epochOf (td0 :: rest0) = m := by
      unfold epochOf
      rw [hm]
      rfl
    have hgrp : ∀ g ∈ groupByHost (td0 :: rest0), ∀ td ∈ g.2,
        td.wf ∧ m ≤ pureBeginNs td ∧
        (lookupState (hdrStatesOf (td0 :: rest0)) td.api).isSome = true := by
      intro g hg td htd
      have hin : td ∈ td0 :: rest0 := groupByHost_mem _ g td hg htd
      refine ⟨hwf td hin, hlb td hin, ?_⟩
      have hapi : td.api ∈ apisOf (td0 :: rest0) := by
        unfold apisOf
        exact List.mem_map.mpr ⟨td, hin, rfl⟩
      have hfs : td.api ∈ firstSeen (apisOf (td0 :: rest0)) := by
        rcases firstSeenFrom_mem (apisOf (td0 :: rest0)) [] td.api hapi with h1 | h1
        · simp at h1
        · exact h1
      have hkey : td.api ∈ (enumFrom 0 (firstSeen (apisOf (td0 :: rest0)))).map Prod.fst := by
        rw [enumFrom_keys]
        exact hfs
      exact insertReplace_isSome _ _ _ _ (lookupState_isSome_of_mem _ _ hkey)
    have hhdr : hdrStatesOf (td0 :: rest0) =
        insertReplace (enumFrom 0 (firstSeen (apisOf (td0 :: rest0)))) "waiting"
          (firstSeen (apisOf (td0 :: rest0))).length := rfl
    have hgb : groupByHost (td0 :: rest0) = groupFold [] (td0 :: rest0) := rfl
    have hev : eventsSpec (td0 :: rest0) =
        eventsOfGroups m (hdrStatesOf (td0 :: rest0))
          (firstSeen (apisOf (td0 :: rest0))).length (groupByHost (td0 :: rest0)) := by
      unfold eventsSpec
      rw [hep]
    unfold printStates
    rw [aggregate_spec (td0 :: rest0) hwf]
    simp only [hm]
    rw [← hhdr, ← hgb, emitGroups_ok m (hdrStatesOf (td0 :: rest0))
      (firstSeen (apisOf (td0 :: rest0))).length (groupByHost (td0 :: rest0)) 0 0 hgrp]
    rw [hev, hep, totalLen_groupByHost]
    simp [List.length_cons]

theorem eventsOfVec_length (s : Nat) (st : List (String × Nat)) (w : Nat) (h : String) :
    ∀ vec, (eventsOfVec s st w h vec).length = 2 * vec.length := by
  intro vec
  induction vec with
  | nil => simp [eventsOfVec]
  | cons td rest ih =>
    simp [eventsOfVec, eventPair, ih]
    omega

theorem eventsOfGroups_length (s : Nat) (st : List (String × Nat)) (w : Nat) :
    ∀ groups, (eventsOfGroups s st w groups).length = 2 * totalLen groups := by
  intro groups
  induction groups with
  | nil => simp [eventsOfGroups, totalLen]
  | cons g rest ih =>
    obtain ⟨host, vec⟩ := g
    simp [eventsOfGroups, totalLen, eventsOfVec_length, ih]
    omega

theorem eventsSpec_length (input : List TraceData) :
    (eventsSpec input).length = 2 * input.length := by
  unfold eventsSpec
  rw [eventsOfGroups_length, totalLen_groupByHost]

theorem sumViol_eq_sumAdj : ∀ (groups : List (String × List TraceData)),
    (∀ g ∈ groups, ∀ td ∈ g.2, 0 ≤ td.timeSec) → sumViol groups = sumAdjViol groups := by
  intro groups
  induction groups with
  | nil => intro _; rfl
  | cons g rest ih =>
    intro h
    simp only [sumViol, sumAdjViol]
    rw [countViol_eq_adj g.2 (h g (by simp)),
      ih (fun g2 hg2 => h g2 (List.mem_cons.mpr (Or.inr hg2)))]

theorem sumAdjViol_zero : ∀ (groups : List (String × List TraceData)),
    (∀ g ∈ groups, ∀ td ∈ g.2, td.wf) → (∀ g ∈ groups, nonOverlapping g.2) →
    sumAdjViol groups = 0 := by
  intro groups
  induction groups with
  | nil => intro _ _; rfl
  | cons g rest ih =>
    intro hwf hno
    simp only [sumAdjViol]
    rw [adjViol_eq_zero g.2 (hwf g (by simp)) (hno g (by simp)),
      ih (fun g2 hg2 => hwf g2 (List.mem_cons.mpr (Or.inr hg2)))
        (fun g2 hg2 => hno g2 (List.mem_cons.mpr (Or.inr hg2)))]

/-! Claim theorems. -/

/-- C3: for every non-empty sequence of well-formed operations, the run
succeeds, the Epoch encoded in the emitted header equals the minimum
inferred start time (`end_time_ns - duration`) over all operations —
wherever in the stream that minimum appears — and consequently every
operation's `start_time_ns - Epoch` offset is non-negative. -/
theorem c3_epoch_minimality (input : List TraceData) (t c : String)
    (hwf : ∀ td ∈ input, td.wf) (hne : input ≠ []) :
    ∃ out, printStates (input.map Except.ok) t c = .ok out ∧
      headerEpoch out.header = epochOf input ∧
      epochOf input ∈ input.map pureBeginNs ∧
      (∀ td ∈ input, epochOf input ≤ pureBeginNs td) ∧
      (∀ td ∈ input, (0 : Int) ≤ (pureBeginNs td : Int) - (epochOf input : Int)) := by
  have hps := printStates_spec input t c hwf hne
  cases input with
  | nil => exact absurd rfl hne
  | cons td0 rest0 =>
    obtain ⟨m, hm, hlb, hmem⟩ := runMin_cons td0 rest0
    have hep : epochOf (td0 :: rest0) = m := by
      unfold epochOf
      rw [hm]
      rfl
    refine ⟨_, hps, ?_, ?_, ?_, ?_⟩
    · simp [headerEpoch, List.getD]
      omega
    · rw [hep]
      exact hmem
    · rw [hep]
      exact hlb
    · intro td htd
      have h1 := hlb td htd
      rw [hep]
      omega

/-- Witness for C3 at the spec's two-record example trace. -/
theorem c3_epoch_minimality_witness :
    (∀ td ∈ exInput, td.wf) ∧ exInput ≠ [] ∧
    (∃ out, printStates (exInput.map Except.ok) "MinIO" "minio cluster" = .ok out ∧
      headerEpoch out.header = epochOf exInput ∧
      epochOf exInput ∈ exInput.map pureBeginNs ∧
      (∀ td ∈ exInput, epochOf exInput ≤ pureBeginNs td) ∧
      (∀ td ∈ exInput, (0 : Int) ≤ (pureBeginNs td : Int) - (epochOf exInput : Int))) :=
  ⟨by decide, by decide,
    c3_epoch_minimality exInput "MinIO" "minio cluster" (by decide) (by decide)⟩

/-- C4: for every non-empty sequence of N well-formed operations, the run
succeeds (ordering violations never abort emission) and emits exactly
2 × N state events, with the final `nstates` counter equal to 2 × N,
regardless of how many violations were counted. -/
theorem c4_event_count (input : List TraceData) (t c : String)
    (hwf : ∀ td ∈ input, td.wf) (hne : input ≠ []) :
    ∃ out, printStates (input.map Except.ok) t c = .ok out ∧
      out.events.length = 2 * input.length ∧ out.nstates = 2 * input.length := by
  refine ⟨_, printStates_spec input t c hwf hne, ?_, rfl⟩
  exact eventsSpec_length input

/-- Witness for C4 at the spec's two-record example trace. -/
theorem c4_event_count_witness :
    (∀ td ∈ exInput, td.wf) ∧ exInput ≠ [] ∧
    (∃ out, printStates (exInput.map Except.ok) "MinIO" "minio cluster" = .ok out ∧
      out.events.length = 2 * exInput.length ∧ out.nstates = 2 * exInput.length) :=
  ⟨by decide, by decide,
    c4_event_count exInput "MinIO" "minio cluster" (by decide) (by decide)⟩

/-- C6: for every non-empty sequence of well-formed operations, the run
emits, for each operation with inferred start S and end E, exactly the
two events with offsets S - Epoch and E - Epoch (exact integer nanosecond
arithmetic, serialized as decimal strings via `toString`, as spelled out
by `eventPair` inside `eventsSpec`), and E - Epoch ≥ S - Epoch. -/
theorem c6_offsets (input : List TraceData) (t c : String)
    (hwf : ∀ td ∈ input, td.wf) (hne : input ≠ []) :
    ∃ out, printStates (input.map Except.ok) t c = .ok out ∧
      out.events = eventsSpec input ∧
      (∀ td ∈ input, pureBeginNs td ≤ pureEndNs td) ∧
      (∀ td ∈ input,
        pureBeginNs td - epochOf input ≤ pureEndNs td - epochOf input) := by
  refine ⟨_, printStates_spec input t c hwf hne, rfl, ?_, ?_⟩
  · intro td _
    exact Nat.sub_le _ _
  · intro td _
    exact Nat.sub_le_sub_right (Nat.sub_le _ _) _

/-- Witness for C6 at the spec's two-record example trace. -/
theorem c6_offsets_witness :
    (∀ td ∈ exInput, td.wf) ∧ exInput ≠ [] ∧
    (∃ out, printStates (exInput.map Except.ok) "MinIO" "minio cluster" = .ok out ∧
      out.events = eventsSpec exInput ∧
      (∀ td ∈ exInput, pureBeginNs td ≤ pureEndNs td) ∧
      (∀ td ∈ exInput,
        pureBeginNs td - epochOf exInput ≤ pureEndNs td - epochOf exInput)) :=
  ⟨by decide, by decide,
    c6_offsets exInput "MinIO" "minio cluster" (by decide) (by decide)⟩

/-- C8: determinism of the aggregation scan as a two-run property — two
runs of `aggregate` on the same input stream yield identical state-code
registries, identical Epochs, and in fact identical whole states (the
scan is a pure fold over the input in its given order). -/
theorem c8_determinism (input : List (Except String TraceData)) (s1 s2 : AggState)
    (h1 : aggregate input = .ok s1) (h2 : aggregate input = .ok s2) :
    s1.metamap = s2.metamap ∧ s1.start = s2.start ∧ s1 = s2 := by
  rw [h1] at h2
  cases h2
  exact ⟨rfl, rfl, rfl⟩

/-- Witness for C8: two runs of the scan on the example trace. -/
theorem c8_determinism_witness :
    exAgg.metamap = exAgg.metamap ∧ exAgg.start = exAgg.start ∧ exAgg = exAgg :=
  c8_determinism (exInput.map Except.ok) exAgg exAgg (by rfl) (by rfl)

/-- C10: the begin/end nanosecond timestamps recomputed in the emission
loop (main.rs:196-202) are, for every record, equal to the ones computed
for the same record during the aggregation fold (main.rs:120-126): the
two duplicated computations are the same function of the record. -/
theorem c10_recompute_equal (td : TraceData) :
    aggComputeTimes td = emitComputeTimes td := rfl

/-- C1 counterexample: record `cB` arrives on host h1 after `exA` and its
inferred start (500 000 000 ns) strictly predates `exA`'s end
(1 000 000 000 ns), so the claim as stated requires the violation counter
to be incremented exactly once for this adjacent pair; the run, which
compares completion timestamps only (main.rs:223), counts zero
violations. -/
theorem c1_counterexample :
    pureBeginNs cB < pureEndNs exA ∧
    nerrorsOf (printStates [Except.ok exA, Except.ok cB] "MinIO" "minio cluster") =
      some 0 := by decide

/-- C1 (amended): for every non-empty sequence of well-formed operations,
the violation counter equals the number of adjacent pairs (in per-entity
arrival order) whose second operation's completion timestamp strictly
predates the first operation's completion timestamp; and a sequence of
non-overlapping operations (each operation starting no earlier than its
predecessor's end, per entity) yields zero violations. -/
theorem c1_violation_counter (input : List TraceData) (t c : String)
    (hwf : ∀ td ∈ input, td.wf) (hne : input ≠ []) :
    ∃ out, printStates (input.map Except.ok) t c = .ok out ∧
      out.nerrors = sumAdjViol (groupByHost input) ∧
      ((∀ g ∈ groupByHost input, nonOverlapping g.2) → out.nerrors = 0) := by
  have hsec : ∀ g ∈ groupByHost input, ∀ td ∈ g.2, 0 ≤ td.timeSec :=
    fun g hg td htd => (hwf td (groupByHost_mem input g td hg htd)).1
  have hgwf : ∀ g ∈ groupByHost input, ∀ td ∈ g.2, td.wf :=
    fun g hg td htd => hwf td (groupByHost_mem input g td hg htd)
  refine ⟨_, printStates_spec input t c hwf hne, ?_, ?_⟩
  · exact sumViol_eq_sumAdj _ hsec
  · intro hno
    show sumViol (groupByHost input) = 0
    rw [sumViol_eq_sumAdj _ hsec]
    exact sumAdjViol_zero _ hgwf hno

/-- Witness for the amended C1 at the spec's two-record example trace. -/
theorem c1_violation_counter_witness :
    (∀ td ∈ exInput, td.wf) ∧ exInput ≠ [] ∧
    (∃ out, printStates (exInput.map Except.ok) "MinIO" "minio cluster" = .ok out ∧
      out.nerrors = sumAdjViol (groupByHost exInput) ∧
      ((∀ g ∈ groupByHost exInput, nonOverlapping g.2) → out.nerrors = 0)) :=
  ⟨by decide, by decide,
    c1_violation_counter exInput "MinIO" "minio cluster" (by decide) (by decide)⟩

/-- C2: on the empty input the run aborts before emitting any output, but
with the `Option::unwrap()`-on-`None` panic raised while building the
header (main.rs:169), not with a distinct descriptive "empty trace"
error condition as the claim requires. -/
theorem c2_empty_trace_unwrap :
    errorOf (printStates [] "MinIO" "minio cluster") =
      some "called Option::unwrap() on a None value" ∧
    eventsOf (printStates [] "MinIO" "minio cluster") = none := by decide

/-- C5 counterexample: a trace whose only (real) operation kind is the
literal string `waiting`.  The scan assigns it code 0; the post-scan
insert of the synthetic `waiting` entry (main.rs:164) then overwrites that
registry entry with code 1 = the number of distinct real kinds, so the
real kind `waiting` is looked up at exactly the waiting code, and its
operation event is emitted with state code 1 — contradicting the claim
that no real kind is ever assigned that code. -/
theorem c5_counterexample :
    statesOf (printStates [Except.ok recW] "MinIO" "minio cluster") =
      some [("waiting", 1)] ∧
    eventsOf (printStates [Except.ok recW] "MinIO" "minio cluster") =
      some [{ time := "0", entity := "h1", state := 1 },
            { time := "0", entity := "h1", state := 1 }] := by decide

/-- C5 (amended): for every non-empty sequence of well-formed operations
none of which has the kind literally named `waiting`, the header registry
is exactly the distinct real kinds in first-seen order paired with codes
0, 1, 2, … followed by the synthetic `waiting` entry whose code equals
the number of distinct real kinds; every real kind's code is strictly
below that number (so no real kind is assigned the waiting code), and no
real registry entry is named `waiting`. -/
theorem c5_registry_stability (input : List TraceData) (t c : String)
    (hwf : ∀ td ∈ input, td.wf) (hne : input ≠ [])
    (hw : "waiting" ∉ apisOf input) :
    ∃ out, printStates (input.map Except.ok) t c = .ok out ∧
      out.header.states =
        enumFrom 0 (firstSeen (apisOf input)) ++
          [("waiting", (firstSeen (apisOf input)).length)] ∧
      (∀ p ∈ enumFrom 0 (firstSeen (apisOf input)),
        p.2 < (firstSeen (apisOf input)).length) ∧
      (∀ p ∈ enumFrom 0 (firstSeen (apisOf input)), p.1 ≠ "waiting") := by
  refine ⟨_, printStates_spec input t c hwf hne, ?_, ?_, ?_⟩
  · show hdrStatesOf input = _
    unfold hdrStatesOf
    apply insertReplace_not_mem
    rw [enumFrom_keys]
    intro hc
    exact hw (firstSeenFrom_subset _ _ _ hc)
  · intro p hp
    have h1 := enumFrom_mem _ 0 p hp
    omega
  · intro p hp heq
    have h1 := enumFrom_mem _ 0 p hp
    exact hw (firstSeenFrom_subset _ _ _ (heq ▸ h1.1))

/-- Witness for the amended C5 at the spec's two-record example trace. -/
theorem c5_registry_stability_witness :
    (∀ td ∈ exInput, td.wf) ∧ exInput ≠ [] ∧ "waiting" ∉ apisOf exInput ∧
    (∃ out, printStates (exInput.map Except.ok) "MinIO" "minio cluster" = .ok out ∧
      out.header.states =
        enumFrom 0 (firstSeen (apisOf exInput)) ++
          [("waiting", (firstSeen (apisOf exInput)).length)] ∧
      (∀ p ∈ enumFrom 0 (firstSeen (apisOf exInput)),
        p.2 < (firstSeen (apisOf exInput)).length) ∧
      (∀ p ∈ enumFrom 0 (firstSeen (apisOf exInput)), p.1 ≠ "waiting")) :=
  ⟨by decide, by decide, by decide,
    c5_registry_stability exInput "MinIO" "minio cluster" (by decide) (by decide)
      (by decide)⟩

/-- C7: a record whose duration (2 s) exceeds its end timestamp (1 s)
does not abort the run.  The unchecked `u64` subtraction at main.rs:126
wraps: the inferred start becomes 2^64 - 10^9 ns, the run succeeds, no
violation is flagged, and both events are emitted from the wrapped value —
where the claim (and the spec's §3 invariant) require a fatal error
instead of a silent wrap. -/
theorem c7_underflow_wraps :
    timesOf (aggComputeTimes badRec) = some (1000000000, 18446744072709551616) ∧
    isOkB (printStates [Except.ok badRec] "MinIO" "minio cluster") = true ∧
    nerrorsOf (printStates [Except.ok badRec] "MinIO" "minio cluster") = some 0 ∧
    eventsOf (printStates [Except.ok badRec] "MinIO" "minio cluster") =
      some [{ time := "0", entity := "h1", state := 0 },
            { time := "2000000000", entity := "h1", state := 1 }] := by decide

/-- C9: running `main` with cluster-name argument `mycluster` and title
argument `MyTitle` produces a header whose `title` field is `mycluster`
and whose `host` field is `MyTitle`: `main` passes the cluster argument
into `print_states`' `title` parameter and the title argument into its
`cluster` parameter, the reverse of what the parameter names expect. -/
theorem c9_swapped_arguments :
    titleHostOf (runMain [Except.ok exA] "mycluster" "MyTitle") =
      some ("mycluster", "MyTitle") := by decide
